import Mathlib

/-!
Verification of the speech-segment timeline engine and filter-graph
synthesizer of `execution/video_editor_pipeline.py`.

The Python functions are shallowly embedded in Lean: time stamps (Python
floats holding seconds) become rationals `ℚ`, segment lists become
`List (ℚ × ℚ)`, the textual FFmpeg filter graph becomes a list of
structured filter statements with string port labels, and the relevant
tail of `main` becomes a pure function from collaborator results to an
exit code.  Each definition mirrors one Python function of the source
file; imperative loops that mutate `merged[-1]` are rendered as
structural recursions whose first argument is the group under
construction (the Python `merged[-1]`), and the loops building the
crossfade chains are rendered as left folds carrying the Python loop
state `(filter_parts, current_label)`.
-/

namespace VEP

/-- A speech segment `(start, end)`, in seconds.  Mirrors the Python
`(start_sec, end_sec)` tuples. -/
abbrev Seg := ℚ × ℚ

/-! ## Segment timeline operations (video_editor_pipeline.py, lines 207-242,
and the keep-start step of `main`, lines 510-513) -/

/-- Loop of `merge_close_segments`: `cur` is the group under construction
(the Python `merged[-1]`); each subsequent segment either extends it
(`merged[-1] = (prev_start, end)`) or closes it and starts a new group. -/
def mergeLoop (max_gap : ℚ) : Seg → List Seg → List Seg
  | cur, [] => [cur]
  | cur, (s, e) :: rest =>
    if s - cur.2 ≤ max_gap then
      mergeLoop max_gap (cur.1, e) rest
    else
      cur :: mergeLoop max_gap (s, e) rest

/-- Embedding of `merge_close_segments(segments, max_gap)` (lines 207-220). -/
def merge_close_segments (segments : List Seg) (max_gap : ℚ) : List Seg :=
  match segments with
  | [] => []
  | first :: rest => mergeLoop max_gap first rest

/-- Coalescing loop of `add_padding` (lines 234-241): `cur` is the Python
`merged[-1]`; an overlapping padded segment is absorbed, taking the max
of the two ends. -/
def padLoop : Seg → List Seg → List Seg
  | cur, [] => [cur]
  | cur, (s, e) :: rest =>
    if s ≤ cur.2 then
      padLoop (cur.1, max cur.2 e) rest
    else
      cur :: padLoop (s, e) rest

/-- The coalescing pass of `add_padding` (lines 234-241), seeded with
`merged = [padded[0]]`; on the empty list it mirrors the early return of
line 225-226. -/
def coalesceOverlaps : List Seg → List Seg
  | [] => []
  | first :: rest => padLoop first rest

/-- Embedding of `add_padding(segments, padding_s, duration)` (lines
223-242): every segment is widened by `padding_s` on each side, clamped to
`[0, duration]`, then overlaps are coalesced. -/
def add_padding (segments : List Seg) (padding_s : ℚ) (duration : ℚ) : List Seg :=
  coalesceOverlaps
    (segments.map fun q => (max 0 (q.1 - padding_s), min duration (q.2 + padding_s)))

/-- Embedding of the keep-start step of `main` (lines 510-513): if the
first segment starts after 0, it is replaced by `(0, first_end)`. -/
def force_start_at_zero : List Seg → List Seg
  | [] => []
  | (s, e) :: rest => if s > 0 then ((0 : ℚ), e) :: rest else (s, e) :: rest

/-- The Timeline invariant of the spec (section 3): every interval has
`0 ≤ start < end`, and consecutive intervals are strictly increasing and
non-overlapping (`end_i ≤ start_(i+1)`). -/
def ValidTimeline (l : List Seg) : Prop :=
  (∀ q ∈ l, 0 ≤ q.1 ∧ q.1 < q.2) ∧ l.Chain' (fun p q => p.2 ≤ q.1)

/-- Consecutive intervals separated by a gap strictly greater than `g`. -/
def SeparatedBy (g : ℚ) (l : List Seg) : Prop :=
  l.Chain' (fun p q => ¬ (q.1 - p.2 ≤ g))

/-! ### Helper lemmas about the merge loop -/

theorem mergeLoop_head (g : ℚ) :
    ∀ (l : List Seg) (cur : Seg), ∃ e tl, mergeLoop g cur l = (cur.1, e) :: tl := by
  intro l
  induction l with
  | nil => exact fun cur => ⟨cur.2, [], by simp [mergeLoop]⟩
  | cons a rest ih =>
    intro cur
    obtain ⟨s, e⟩ := a
    by_cases h : s - cur.2 ≤ g
    · simpa [mergeLoop, h] using ih (cur.1, e)
    · exact ⟨cur.2, mergeLoop g (s, e) rest, by simp [mergeLoop, h]⟩

theorem mergeLoop_valid (g : ℚ) :
    ∀ (l : List Seg) (cur : Seg), 0 ≤ cur.1 → cur.1 < cur.2 →
      (∀ q ∈ l, 0 ≤ q.1 ∧ q.1 < q.2) →
      List.Chain' (fun p q => p.2 ≤ q.1) (cur :: l) →
      ValidTimeline (mergeLoop g cur l) := by
  intro l
  induction l with
  | nil =>
    intro cur h0 hlt _ _
    exact ⟨by simpa [mergeLoop] using And.intro h0 hlt, by simp [mergeLoop]⟩
  | cons a rest ih =>
    intro cur h0 hlt hall hchain
    obtain ⟨s, e⟩ := a
    rw [List.chain'_cons] at hchain
    obtain ⟨hce, hchain'⟩ := hchain
    have hse : 0 ≤ s ∧ s < e := hall _ (List.mem_cons_self _ _)
    by_cases h : s - cur.2 ≤ g
    · rw [mergeLoop, if_pos h]
      apply ih (cur.1, e) h0
      · have hce' : cur.2 ≤ s := hce
        show cur.1 < e
        linarith [hse.2]
      · exact fun q hq => hall q (List.mem_cons_of_mem _ hq)
      · rcases rest with _ | ⟨b, rest'⟩
        · simp
        · rw [List.chain'_cons] at hchain' ⊢
          exact ⟨hchain'.1, hchain'.2⟩
    · rw [mergeLoop, if_neg h]
      have hrec := ih (s, e) hse.1 hse.2
        (fun q hq => hall q (List.mem_cons_of_mem _ hq)) hchain'
      obtain ⟨e', tl, heq⟩ := mergeLoop_head g rest (s, e)
      refine ⟨?_, ?_⟩
      · intro q hq
        rcases List.mem_cons.mp hq with hq | hq
        · subst hq; exact ⟨h0, hlt⟩
        · exact hrec.1 q hq
      · rw [heq, List.chain'_cons]
        rw [heq] at hrec
        exact ⟨by simpa using hce, hrec.2⟩

theorem mergeLoop_separated (g : ℚ) :
    ∀ (l : List Seg) (cur : Seg), SeparatedBy g (mergeLoop g cur l) := by
  intro l
  induction l with
  | nil => intro cur; simp [mergeLoop, SeparatedBy]
  | cons a rest ih =>
    intro cur
    obtain ⟨s, e⟩ := a
    by_cases h : s - cur.2 ≤ g
    · rw [SeparatedBy, mergeLoop, if_pos h]
      exact ih (cur.1, e)
    · rw [SeparatedBy, mergeLoop, if_neg h]
      obtain ⟨e', tl, heq⟩ := mergeLoop_head g rest (s, e)
      rw [heq, List.chain'_cons]
      have := ih (s, e)
      rw [SeparatedBy, heq] at this
      exact ⟨by simpa using h, this⟩

theorem mergeLoop_fixed (g : ℚ) :
    ∀ (l : List Seg) (cur : Seg), SeparatedBy g (cur :: l) →
      mergeLoop g cur l = cur :: l := by
  intro l
  induction l with
  | nil => intro cur _; simp [mergeLoop]
  | cons a rest ih =>
    intro cur hsep
    obtain ⟨s, e⟩ := a
    rw [SeparatedBy, List.chain'_cons] at hsep
    rw [mergeLoop, if_neg (by simpa using hsep.1)]
    rw [ih (s, e) hsep.2]

/-! ### Helper lemmas about the padding loop -/

theorem padLoop_head :
    ∀ (l : List Seg) (cur : Seg), ∃ e tl, padLoop cur l = (cur.1, e) :: tl := by
  intro l
  induction l with
  | nil => exact fun cur => ⟨cur.2, [], by simp [padLoop]⟩
  | cons a rest ih =>
    intro cur
    obtain ⟨s, e⟩ := a
    by_cases h : s ≤ cur.2
    · simpa [padLoop, h] using ih (cur.1, max cur.2 e)
    · exact ⟨cur.2, padLoop (s, e) rest, by simp [padLoop, h]⟩

theorem padLoop_valid :
    ∀ (l : List Seg) (cur : Seg), 0 ≤ cur.1 → cur.1 < cur.2 →
      (∀ q ∈ l, cur.1 ≤ q.1 ∧ q.1 < q.2) →
      List.Pairwise (fun p q : Seg => p.1 ≤ q.1) l →
      ValidTimeline (padLoop cur l) := by
  intro l
  induction l with
  | nil =>
    intro cur h0 hlt _ _
    exact ⟨by simpa [padLoop] using And.intro h0 hlt, by simp [padLoop]⟩
  | cons a rest ih =>
    intro cur h0 hlt hall hpw
    obtain ⟨s, e⟩ := a
    rw [List.pairwise_cons] at hpw
    have hse := hall _ (List.mem_cons_self _ _)
    by_cases h : s ≤ cur.2
    · rw [padLoop, if_pos h]
      apply ih (cur.1, max cur.2 e) h0 (lt_of_lt_of_le hlt (le_max_left _ _))
      · exact fun q hq => hall q (List.mem_cons_of_mem _ hq)
      · exact hpw.2
    · rw [padLoop, if_neg h]
      have hrec := ih (s, e) (le_trans h0 hse.1) hse.2
        (fun q hq => ⟨hpw.1 q hq, (hall q (List.mem_cons_of_mem _ hq)).2⟩) hpw.2
      obtain ⟨e', tl, heq⟩ := padLoop_head rest (s, e)
      refine ⟨?_, ?_⟩
      · intro q hq
        rcases List.mem_cons.mp hq with hq | hq
        · subst hq; exact ⟨h0, hlt⟩
        · exact hrec.1 q hq
      · rw [heq, List.chain'_cons]
        rw [heq] at hrec
        exact ⟨by simp; linarith [not_le.mp h], hrec.2⟩

/-! ### Pairwise consequences of the Timeline invariant -/

theorem valid_pairwise :
    ∀ (l : List Seg), ValidTimeline l → l.Pairwise (fun p q => p.2 ≤ q.1) := by
  intro l
  induction l with
  | nil => intro _; simp
  | cons a rest ih =>
    intro hv
    have hvrest : ValidTimeline rest :=
      ⟨fun q hq => hv.1 q (List.mem_cons_of_mem _ hq), (List.chain'_cons'.mp hv.2).2⟩
    have hpw := ih hvrest
    rw [List.pairwise_cons]
    refine ⟨?_, hpw⟩
    rcases rest with _ | ⟨b, rest'⟩
    · simp
    · have hab : a.2 ≤ b.1 := (List.chain'_cons.mp hv.2).1
      intro q hq
      rcases List.mem_cons.mp hq with hq | hq
      · subst hq; exact hab
      · have hb : 0 ≤ b.1 ∧ b.1 < b.2 := hvrest.1 b (List.mem_cons_self _ _)
        have := (List.pairwise_cons.mp hpw).1 q hq
        linarith

theorem valid_end_le_last :
    ∀ (l : List Seg), ValidTimeline l → ∀ q ∈ l, ∀ z ∈ l.getLast?, q.2 ≤ z.2 := by
  intro l
  induction l with
  | nil => intro _ q hq; simp at hq
  | cons a rest ih =>
    intro hv q hq z hz
    have hvrest : ValidTimeline rest :=
      ⟨fun q hq => hv.1 q (List.mem_cons_of_mem _ hq), (List.chain'_cons'.mp hv.2).2⟩
    rcases rest with _ | ⟨b, rest'⟩
    · simp at hz
      rcases List.mem_singleton.mp hq with rfl
      simp [hz]
    · rw [List.getLast?_cons_cons] at hz
      have hb2 : b.2 ≤ z.2 := ih hvrest b (List.mem_cons_self _ _) z hz
      rcases List.mem_cons.mp hq with hq | hq
      · subst hq
        have hab : q.2 ≤ b.1 := (List.chain'_cons.mp hv.2).1
        have hb : 0 ≤ b.1 ∧ b.1 < b.2 := hvrest.1 b (List.mem_cons_self _ _)
        linarith
      · exact ih hvrest q hq z hz

/-! ## Claims about the timeline operations -/

/-- Claim C3: `merge_close_segments` scans left to right and merges a
segment into the immediately preceding group (extending that group's end)
iff the gap to the previous group's end is at most `max_gap`, otherwise it
starts a new group; the empty input yields the empty output; and the two
concrete examples of the spec hold (`1.2 = 6/5`, `0.3 = 3/10`,
`0.1 = 1/10`). -/
theorem merge_close_segments_spec :
    (∀ g : ℚ, merge_close_segments [] g = []) ∧
    (∀ (g s1 e1 s2 e2 : ℚ) (rest : List Seg), s2 - e1 ≤ g →
      merge_close_segments ((s1, e1) :: (s2, e2) :: rest) g =
        merge_close_segments ((s1, e2) :: rest) g) ∧
    (∀ (g s1 e1 s2 e2 : ℚ) (rest : List Seg), ¬ s2 - e1 ≤ g →
      merge_close_segments ((s1, e1) :: (s2, e2) :: rest) g =
        (s1, e1) :: merge_close_segments ((s2, e2) :: rest) g) ∧
    merge_close_segments [(0, 1), (6/5, 2)] (3/10) = [(0, 2)] ∧
    merge_close_segments [(0, 1), (6/5, 2)] (1/10) = [(0, 1), (6/5, 2)] := by
  refine ⟨fun g => rfl, ?_, ?_, ?_, ?_⟩
  · intro g s1 e1 s2 e2 rest h
    simp [merge_close_segments, mergeLoop, h]
  · intro g s1 e1 s2 e2 rest h
    simp [merge_close_segments, mergeLoop, h]
  · norm_num [merge_close_segments, mergeLoop]
  · norm_num [merge_close_segments, mergeLoop]

/-- Witness for C3: the two conditional recurrences applied at the spec's
concrete example. -/
theorem merge_close_segments_spec_witness :
    ((6/5 : ℚ) - 1 ≤ 3/10 ∧
      merge_close_segments [(0, 1), (6/5, 2)] (3/10) =
        merge_close_segments [((0 : ℚ), (2 : ℚ))] (3/10)) ∧
    (¬ ((6/5 : ℚ) - 1 ≤ 1/10) ∧
      merge_close_segments [(0, 1), (6/5, 2)] (1/10) =
        (0, 1) :: merge_close_segments [((6/5 : ℚ), (2 : ℚ))] (1/10)) := by
  constructor
  · exact ⟨by norm_num, merge_close_segments_spec.2.1 (3/10) 0 1 (6/5) 2 [] (by norm_num)⟩
  · exact ⟨by norm_num, merge_close_segments_spec.2.2.1 (1/10) 0 1 (6/5) 2 [] (by norm_num)⟩

/-- Claim C4: `add_padding` expands every interval by `pad_seconds` on
each side, clamps each result to `[0, duration]`, then coalesces overlaps
(whenever a padded start is at most the previous padded end the two merge,
taking the max of the two ends); it handles empty and single-interval
timelines; and the spec's concrete examples hold (`2.5 = 5/2`,
`0.5 = 1/2`). -/
theorem add_padding_spec :
    (∀ p d : ℚ, add_padding [] p d = []) ∧
    (∀ s e p d : ℚ, add_padding [(s, e)] p d = [(max 0 (s - p), min d (e + p))]) ∧
    (∀ (l : List Seg) (p d : ℚ), add_padding l p d =
      coalesceOverlaps (l.map fun q => (max 0 (q.1 - p), min d (q.2 + p)))) ∧
    (∀ (cur : Seg) (s e : ℚ) (rest : List Seg), s ≤ cur.2 →
      coalesceOverlaps (cur :: (s, e) :: rest) =
        coalesceOverlaps ((cur.1, max cur.2 e) :: rest)) ∧
    (∀ (cur : Seg) (s e : ℚ) (rest : List Seg), ¬ s ≤ cur.2 →
      coalesceOverlaps (cur :: (s, e) :: rest) =
        cur :: coalesceOverlaps ((s, e) :: rest)) ∧
    add_padding [(5, 6)] 1 10 = [(4, 7)] ∧
    add_padding [(0, 1)] 2 10 = [(0, 3)] ∧
    add_padding [(1, 2), (5/2, 3)] (1/2) 10 = [(1/2, 7/2)] := by
  refine ⟨fun p d => rfl, ?_, fun l p d => rfl, ?_, ?_, ?_, ?_, ?_⟩
  · intro s e p d
    simp [add_padding, coalesceOverlaps, padLoop]
  · intro cur s e rest h
    simp [coalesceOverlaps, padLoop, h]
  · intro cur s e rest h
    simp [coalesceOverlaps, padLoop, h]
  · norm_num [add_padding, coalesceOverlaps, padLoop]
  · norm_num [add_padding, coalesceOverlaps, padLoop]
  · norm_num [add_padding, coalesceOverlaps, padLoop]

/-- Witness for C4: the coalescing recurrence applied at a concrete
overlapping pair. -/
theorem add_padding_spec_witness :
    (1 : ℚ) ≤ 2 ∧
      coalesceOverlaps [((0 : ℚ), (2 : ℚ)), (1, 3)] =
        coalesceOverlaps [((0 : ℚ), max (2 : ℚ) 3)] :=
  ⟨by norm_num, add_padding_spec.2.2.2.1 (0, 2) 1 3 [] (by norm_num)⟩

/-- Claim C5: the force-start-at-zero step replaces the first interval
`(s, e)` by `(0, e)` when `s > 0`, leaves every other interval unchanged,
is a no-op when the first start is not positive or the timeline is empty,
and satisfies the spec's concrete examples. -/
theorem force_start_at_zero_spec :
    (∀ (s e : ℚ) (rest : List Seg), 0 < s →
      force_start_at_zero ((s, e) :: rest) = (0, e) :: rest) ∧
    (∀ (s e : ℚ) (rest : List Seg), ¬ 0 < s →
      force_start_at_zero ((s, e) :: rest) = (s, e) :: rest) ∧
    force_start_at_zero [] = [] ∧
    force_start_at_zero [(2, 5), (6, 7)] = [(0, 5), (6, 7)] := by
  refine ⟨?_, ?_, rfl, ?_⟩
  · intro s e rest h
    simp [force_start_at_zero, h]
  · intro s e rest h
    simp [force_start_at_zero, h]
  · norm_num [force_start_at_zero]

/-- Witness for C5: the first-interval rewrite applied at the spec's
concrete example. -/
theorem force_start_at_zero_spec_witness :
    (0 : ℚ) < 2 ∧
      force_start_at_zero [(2, 5), (6, 7)] = (0, 5) :: [((6 : ℚ), (7 : ℚ))] := by
  exact ⟨by norm_num, force_start_at_zero_spec.1 2 5 [(6, 7)] (by norm_num)⟩

/-- Claim C10: `merge_close_segments` is idempotent for every input list
and every `max_gap`, and any two consecutive intervals of its output are
separated by a gap strictly greater than `max_gap`. -/
theorem merge_close_segments_idempotent (l : List Seg) (g : ℚ) :
    merge_close_segments (merge_close_segments l g) g = merge_close_segments l g ∧
    SeparatedBy g (merge_close_segments l g) := by
  cases l with
  | nil => exact ⟨rfl, by simp [merge_close_segments, SeparatedBy]⟩
  | cons a rest =>
    have hsep := mergeLoop_separated g rest a
    obtain ⟨e, tl, heq⟩ := mergeLoop_head g rest a
    refine ⟨?_, hsep⟩
    show merge_close_segments (mergeLoop g a rest) g = mergeLoop g a rest
    rw [heq]
    show mergeLoop g (a.1, e) tl = (a.1, e) :: tl
    apply mergeLoop_fixed
    rw [← heq]
    exact hsep

/-- Claim C2: on any input satisfying the Timeline invariant, with any
`max_gap ≥ 0`, any `pad ≥ 0` and any duration no smaller than the last
interval's end, the outputs of `merge_close_segments`, `add_padding` and
the force-start-at-zero step each satisfy the Timeline invariant again. -/
theorem timeline_ops_preserve_invariant (l : List Seg) (g p dur : ℚ)
    (hv : ValidTimeline l) (_hg : 0 ≤ g) (hp : 0 ≤ p)
    (hdur : ∀ z ∈ l.getLast?, z.2 ≤ dur) :
    ValidTimeline (merge_close_segments l g) ∧
    ValidTimeline (add_padding l p dur) ∧
    ValidTimeline (force_start_at_zero l) := by
  cases l with
  | nil =>
    refine ⟨?_, ?_, ?_⟩
    · exact ⟨by simp [merge_close_segments], by simp [merge_close_segments]⟩
    · exact ⟨by simp [add_padding, coalesceOverlaps], by simp [add_padding, coalesceOverlaps]⟩
    · exact ⟨by simp [force_start_at_zero], by simp [force_start_at_zero]⟩
  | cons a rest =>
    have ha := hv.1 a (List.mem_cons_self _ _)
    have hq2dur : ∀ q ∈ a :: rest, q.2 ≤ dur := by
      intro q hq
      have hne : (a :: rest) ≠ [] := by simp
      have hlast : (a :: rest).getLast? = some ((a :: rest).getLast hne) :=
        List.getLast?_eq_getLast _ hne
      have h1 := valid_end_le_last _ hv q hq ((a :: rest).getLast hne)
        (Option.mem_def.mpr hlast)
      have h2 := hdur ((a :: rest).getLast hne) (Option.mem_def.mpr hlast)
      linarith
    refine ⟨?_, ?_, ?_⟩
    · exact mergeLoop_valid g rest a ha.1 ha.2
        (fun q hq => hv.1 q (List.mem_cons_of_mem _ hq)) hv.2
    · have hun : add_padding (a :: rest) p dur =
          padLoop (max 0 (a.1 - p), min dur (a.2 + p))
            (rest.map fun q => (max 0 (q.1 - p), min dur (q.2 + p))) := by
        simp [add_padding, coalesceOverlaps]
      rw [hun]
      have hpad : ∀ q ∈ a :: rest,
          0 ≤ max 0 (q.1 - p) ∧ max 0 (q.1 - p) < min dur (q.2 + p) := by
        intro q hq
        have h1 := hv.1 q hq
        have h2 := hq2dur q hq
        refine ⟨le_max_left _ _, ?_⟩
        have hle : max 0 (q.1 - p) ≤ q.1 := max_le h1.1 (by linarith)
        have hge : q.2 ≤ min dur (q.2 + p) := le_min h2 (by linarith)
        linarith [h1.2]
      have hpw := valid_pairwise _ hv
      apply padLoop_valid
      · exact (hpad a (List.mem_cons_self _ _)).1
      · exact (hpad a (List.mem_cons_self _ _)).2
      · intro q hq
        rw [List.mem_map] at hq
        obtain ⟨b, hb, rfl⟩ := hq
        have hab : a.2 ≤ b.1 := (List.pairwise_cons.mp hpw).1 b hb
        refine ⟨?_, (hpad b (List.mem_cons_of_mem _ hb)).2⟩
        show max 0 (a.1 - p) ≤ max 0 (b.1 - p)
        have : a.1 ≤ b.1 := by linarith [ha.2]
        exact max_le_max (le_refl 0) (by linarith)
      · rw [List.pairwise_map]
        apply List.Pairwise.imp_of_mem ?_ (List.pairwise_cons.mp hpw).2
        intro x y hx hy hxy
        show max 0 (x.1 - p) ≤ max 0 (y.1 - p)
        have hx2 := hv.1 x (List.mem_cons_of_mem _ hx)
        exact max_le_max (le_refl 0) (by linarith [hx2.2])
    · obtain ⟨s, e⟩ := a
      by_cases h : (0 : ℚ) < s
      · rw [force_start_at_zero, if_pos h]
        refine ⟨?_, ?_⟩
        · intro q hq
          rcases List.mem_cons.mp hq with rfl | hq
          · exact ⟨le_refl 0, by simpa using lt_trans h ha.2⟩
          · exact hv.1 q (List.mem_cons_of_mem _ hq)
        · rcases rest with _ | ⟨b, rest'⟩
          · simp
          · rw [List.chain'_cons]
            have := List.chain'_cons.mp hv.2
            exact ⟨this.1, this.2⟩
      · rw [force_start_at_zero, if_neg h]
        exact hv

/-- Witness for C2: the invariant-preservation theorem applied at a
concrete valid timeline with concrete parameters. -/
theorem timeline_ops_preserve_invariant_witness :
    ValidTimeline [((0 : ℚ), (1 : ℚ)), (2, 3)] ∧
    ValidTimeline (merge_close_segments [((0 : ℚ), (1 : ℚ)), (2, 3)] (3/10)) ∧
    ValidTimeline (add_padding [((0 : ℚ), (1 : ℚ)), (2, 3)] (1/4) 4) ∧
    ValidTimeline (force_start_at_zero [((0 : ℚ), (1 : ℚ)), (2, 3)]) := by
  have hv : ValidTimeline [((0 : ℚ), (1 : ℚ)), (2, 3)] := by
    constructor
    · intro q hq
      simp only [List.mem_cons, List.not_mem_nil, or_false] at hq
      rcases hq with rfl | rfl
      · norm_num
      · norm_num
    · simp only [List.chain'_cons, List.chain'_singleton, and_true]
      norm_num
  have h := timeline_ops_preserve_invariant [((0 : ℚ), (1 : ℚ)), (2, 3)] (3/10) (1/4) 4 hv
    (by norm_num) (by norm_num)
    (by
      intro z hz
      simp only [List.getLast?_cons_cons, List.getLast?_singleton, Option.mem_def,
        Option.some.injEq] at hz
      subst hz
      norm_num)
  exact ⟨hv, h.1, h.2.1, h.2.2⟩

/-! ## Filter graph builder (video_editor_pipeline.py, lines 245-312 and the
enhancement splice of process_video, lines 326-332) -/

/-- One statement of the FFmpeg filter graph.  Each constructor mirrors one
`filter_parts.append(...)` of the Python code, keeping the numeric
parameters exact and the bracketed port labels as strings:
`vtrim` is `[0:v]trim=start=..:end=..,setpts=PTS-STARTPTS[out]`,
`atrim` is `[0:a]atrim=start=..:end=..,asetpts=PTS-STARTPTS[out]`,
`xfade` is `[inL][inR]xfade=transition=fade:duration=..:offset=..[out]`,
`acrossfade` is `[inL][inR]acrossfade=d=..[out]`,
`concat` is `[v0][a0]...concat=n=..:v=1:a=1[outV][outA]`, and
`afilter` is an audio filter chain `[inL]chain[out]` as produced by the
enhancement splice. -/
inductive FilterPart where
  | vtrim (start stop : ℚ) (out : String)
  | atrim (start stop : ℚ) (out : String)
  | xfade (inL inR : String) (duration offset : ℚ) (out : String)
  | acrossfade (inL inR : String) (d : ℚ) (out : String)
  | concat (ins : List String) (n : Nat) (outV outA : String)
  | afilter (inL : String) (chain : String) (out : String)
  deriving DecidableEq

/-- The 150 ms crossfade length of line 252 (`transition_duration = 0.15`). -/
def transition_duration : ℚ := 15/100

/-- One iteration of the video crossfade loop (lines 267-274): the
accumulator carries the Python loop state `(filter_parts, current_v)`. -/
def xfadeStep (n : Nat) (d : ℚ) (acc : List FilterPart × String) (i : Nat) :
    List FilterPart × String :=
  let next_v := "v" ++ toString i
  let out_v := if i < n - 1 then "xv" ++ toString i else "outv"
  (acc.1 ++ [FilterPart.xfade acc.2 next_v d ((i : ℚ) * (1/2)) out_v], out_v)

/-- The video crossfade chain (lines 267-274): a left fold over
`range(1, n)` starting from `current_v = "[v0]"`. -/
def xfadeChain (n : Nat) (d : ℚ) : List FilterPart × String :=
  (List.range' 1 (n - 1)).foldl (xfadeStep n d) ([], "v0")

/-- One iteration of the audio crossfade loop (lines 277-284). -/
def acrossfadeStep (n : Nat) (d : ℚ) (acc : List FilterPart × String) (i : Nat) :
    List FilterPart × String :=
  let next_a := "a" ++ toString i
  let out_a := if i < n - 1 then "xa" ++ toString i else "outa"
  (acc.1 ++ [FilterPart.acrossfade acc.2 next_a d out_a], out_a)

/-- The audio crossfade chain (lines 277-284). -/
def acrossfadeChain (n : Nat) (d : ℚ) : List FilterPart × String :=
  (List.range' 1 (n - 1)).foldl (acrossfadeStep n d) ([], "a0")

/-- The per-interval video trim statements (`for i, (start, end) in
enumerate(segments)` of lines 255-258 and 287-290, identical in both
branches). -/
def vtrims (segments : List Seg) : List FilterPart :=
  segments.enum.map fun p => FilterPart.vtrim p.2.1 p.2.2 ("v" ++ toString p.1)

/-- The per-interval audio trim statements (lines 261-264 and 292-295,
identical in both branches). -/
def atrims (segments : List Seg) : List FilterPart :=
  segments.enum.map fun p => FilterPart.atrim p.2.1 p.2.2 ("a" ++ toString p.1)

/-- Embedding of `build_trim_concat_filter(segments, add_transitions)`
(lines 245-300). -/
def build_trim_concat_filter (segments : List Seg) (add_transitions : Bool) :
    List FilterPart :=
  let n := segments.length
  if add_transitions ∧ n > 1 then
    vtrims segments ++ atrims segments ++
    (xfadeChain n transition_duration).1 ++
    (acrossfadeChain n transition_duration).1
  else
    vtrims segments ++ atrims segments ++
    [FilterPart.concat
      ((List.range n).flatMap fun i => ["v" ++ toString i, "a" ++ toString i])
      n "outv" "outa"]

/-- Embedding of `build_audio_enhancement_filter()` (lines 303-312). -/
def build_audio_enhancement_filter : String :=
  "highpass=f=80,lowpass=f=12000,equalizer=f=200:t=q:w=1:g=-1,equalizer=f=3000:t=q:w=1:g=2,acompressor=threshold=-20dB:ratio=3:attack=5:release=50,loudnorm=I=-16:TP=-1.5:LRA=11"

/-- Replace the label `lold` by `lnew`, mirroring the effect of the textual
`str.replace` of line 332 on a single bracketed port label. -/
def renameLabel (lold lnew l : String) : String :=
  if l = lold then lnew else l

/-- Apply `renameLabel` to every port label of a filter statement. -/
def FilterPart.rename (lold lnew : String) : FilterPart → FilterPart
  | .vtrim s e o => .vtrim s e (renameLabel lold lnew o)
  | .atrim s e o => .atrim s e (renameLabel lold lnew o)
  | .xfade a b d off o =>
      .xfade (renameLabel lold lnew a) (renameLabel lold lnew b) d off
        (renameLabel lold lnew o)
  | .acrossfade a b d o =>
      .acrossfade (renameLabel lold lnew a) (renameLabel lold lnew b) d
        (renameLabel lold lnew o)
  | .concat ins n ov oa =>
      .concat (ins.map (renameLabel lold lnew)) n (renameLabel lold lnew ov)
        (renameLabel lold lnew oa)
  | .afilter i c o =>
      .afilter (renameLabel lold lnew i) c (renameLabel lold lnew o)

/-- Embedding of the audio-enhancement splice of `process_video` (lines
330-332): the textual replacement of every occurrence of `"[outa]"` by
`"[outa_pre];[outa_pre]<chain>[outa]"`.  In every graph built by
`build_trim_concat_filter` the label `outa` occurs exactly once, as the
output of the final statement (proven below: it is never an input), so the
replacement renames that port to `outa_pre` and appends the enhancement
statement re-bound to `outa`. -/
def spliceEnhancement (parts : List FilterPart) : List FilterPart :=
  parts.map (FilterPart.rename "outa" "outa_pre") ++
    [FilterPart.afilter "outa_pre" build_audio_enhancement_filter "outa"]

/-- Embedding of the filter-graph construction of `process_video` (lines
326-332): build the trim/concat graph, then splice the enhancement chain
onto `[outa]` when `enhance_audio` is set. -/
def process_video_filter (segments : List Seg) (enhance_audio add_transitions : Bool) :
    List FilterPart :=
  let filter_complex := build_trim_concat_filter segments add_transitions
  if enhance_audio then spliceEnhancement filter_complex else filter_complex

/-- The input port labels of a filter statement. -/
def FilterPart.inputs : FilterPart → List String
  | .vtrim _ _ _ => ["0:v"]
  | .atrim _ _ _ => ["0:a"]
  | .xfade a b _ _ _ => [a, b]
  | .acrossfade a b _ _ => [a, b]
  | .concat ins _ _ _ => ins
  | .afilter i _ _ => [i]

/-- The output port labels of a filter statement. -/
def FilterPart.outputs : FilterPart → List String
  | .vtrim _ _ o => [o]
  | .atrim _ _ o => [o]
  | .xfade _ _ _ _ o => [o]
  | .acrossfade _ _ _ o => [o]
  | .concat _ _ ov oa => [ov, oa]
  | .afilter _ _ o => [o]

/-- A label is an exposed output port of a graph when some statement
produces it and no statement consumes it. -/
def is_exposed (parts : List FilterPart) (l : String) : Prop :=
  (∃ p ∈ parts, l ∈ p.outputs) ∧ ∀ p ∈ parts, l ∉ p.inputs

/-- The offsets of the xfade statements of a graph, in order. -/
def xfadeOffsets : List FilterPart → List ℚ
  | [] => []
  | FilterPart.xfade _ _ _ off _ :: rest => off :: xfadeOffsets rest
  | _ :: rest => xfadeOffsets rest

/-- Modelled from the spec (sections 4.3 and 9): the offset the corrected
contract requires for crossfade stage `i` — the cumulative rendered
duration of the chain so far (the first `i` segment lengths, shortened by
the `i - 1` crossfade overlaps already applied) minus the crossfade
duration. -/
def spec_xfade_offset (segments : List Seg) (d : ℚ) (i : Nat) : ℚ :=
  (((segments.take i).map fun q => q.2 - q.1).sum - ((i : ℚ) - 1) * d) - d

/-! ### Closed forms of the crossfade chains -/

/-- The first input of video crossfade stage `i` (the loop's `current_v`
when entering iteration `i`). -/
def vinLabel (i : Nat) : String :=
  if i = 1 then "v0" else "xv" ++ toString (i - 1)

/-- The output of video crossfade stage `i`. -/
def voutLabel (n i : Nat) : String :=
  if i < n - 1 then "xv" ++ toString i else "outv"

/-- The first input of audio crossfade stage `i`. -/
def ainLabel (i : Nat) : String :=
  if i = 1 then "a0" else "xa" ++ toString (i - 1)

/-- The output of audio crossfade stage `i`. -/
def aoutLabel (n i : Nat) : String :=
  if i < n - 1 then "xa" ++ toString i else "outa"

theorem xfadeChain_aux (n : Nat) (d : ℚ) :
    ∀ k, k ≤ n - 1 →
      (List.range' 1 k).foldl (xfadeStep n d) ([], "v0") =
        ((List.range' 1 k).map fun i =>
          FilterPart.xfade (vinLabel i) ("v" ++ toString i) d ((i : ℚ) * (1/2))
            (voutLabel n i),
         if k = 0 then "v0" else voutLabel n k) := by
  intro k
  induction k with
  | zero => intro _; simp
  | succ m ih =>
    intro hk
    have hm := ih (by omega)
    have hcc : (1 : Nat) + 1 * m = m + 1 := by omega
    rw [List.range'_concat, hcc, List.foldl_append, hm, List.map_append]
    simp only [List.foldl_cons, List.foldl_nil, List.map_cons, List.map_nil]
    have hcur : (if m = 0 then "v0" else voutLabel n m) = vinLabel (m + 1) := by
      rcases Nat.eq_zero_or_pos m with rfl | hm0
      · simp [vinLabel]
      · have hmn : m < n - 1 := by omega
        have h1 : ¬ (m + 1 = 1) := by omega
        simp [voutLabel, vinLabel, hmn, h1, hm0.ne']
    have hout : ∀ (acc : List FilterPart × String),
        xfadeStep n d acc (m + 1) =
          (acc.1 ++ [FilterPart.xfade acc.2 ("v" ++ toString (m + 1)) d
            (((m + 1 : Nat) : ℚ) * (1/2)) (voutLabel n (m + 1))], voutLabel n (m + 1)) := by
      intro acc
      simp [xfadeStep, voutLabel]
    rw [hout]
    refine Prod.ext ?_ ?_
    · simp only
      rw [← hcur]
    · simp only
      rw [if_neg (by omega)]

theorem xfadeChain_eq (n : Nat) (d : ℚ) :
    (xfadeChain n d).1 =
      (List.range' 1 (n - 1)).map fun i =>
        FilterPart.xfade (vinLabel i) ("v" ++ toString i) d ((i : ℚ) * (1/2))
          (voutLabel n i) := by
  unfold xfadeChain
  rw [xfadeChain_aux n d (n - 1) le_rfl]

theorem acrossfadeChain_aux (n : Nat) (d : ℚ) :
    ∀ k, k ≤ n - 1 →
      (List.range' 1 k).foldl (acrossfadeStep n d) ([], "a0") =
        ((List.range' 1 k).map fun i =>
          FilterPart.acrossfade (ainLabel i) ("a" ++ toString i) d (aoutLabel n i),
         if k = 0 then "a0" else aoutLabel n k) := by
  intro k
  induction k with
  | zero => intro _; simp
  | succ m ih =>
    intro hk
    have hm := ih (by omega)
    have hcc : (1 : Nat) + 1 * m = m + 1 := by omega
    rw [List.range'_concat, hcc, List.foldl_append, hm, List.map_append]
    simp only [List.foldl_cons, List.foldl_nil, List.map_cons, List.map_nil]
    have hcur : (if m = 0 then "a0" else aoutLabel n m) = ainLabel (m + 1) := by
      rcases Nat.eq_zero_or_pos m with rfl | hm0
      · simp [ainLabel]
      · have hmn : m < n - 1 := by omega
        have h1 : ¬ (m + 1 = 1) := by omega
        simp [aoutLabel, ainLabel, hmn, h1, hm0.ne']
    have hout : ∀ (acc : List FilterPart × String),
        acrossfadeStep n d acc (m + 1) =
          (acc.1 ++ [FilterPart.acrossfade acc.2 ("a" ++ toString (m + 1)) d
            (aoutLabel n (m + 1))], aoutLabel n (m + 1)) := by
      intro acc
      simp [acrossfadeStep, aoutLabel]
    rw [hout]
    refine Prod.ext ?_ ?_
    · simp only
      rw [← hcur]
    · simp only
      rw [if_neg (by omega)]

theorem acrossfadeChain_eq (n : Nat) (d : ℚ) :
    (acrossfadeChain n d).1 =
      (List.range' 1 (n - 1)).map fun i =>
        FilterPart.acrossfade (ainLabel i) ("a" ++ toString i) d (aoutLabel n i) := by
  unfold acrossfadeChain
  rw [acrossfadeChain_aux n d (n - 1) le_rfl]

/-! ### Branch equations and label facts for the graph builder -/

theorem build_eq_transitions (segments : List Seg) (h : segments.length > 1) :
    build_trim_concat_filter segments true =
      vtrims segments ++ atrims segments ++
      (xfadeChain segments.length transition_duration).1 ++
      (acrossfadeChain segments.length transition_duration).1 := by
  simp only [build_trim_concat_filter]
  rw [if_pos ⟨trivial, h⟩]

theorem build_eq_plain (segments : List Seg) (t : Bool)
    (h : ¬ (t = true ∧ segments.length > 1)) :
    build_trim_concat_filter segments t =
      vtrims segments ++ atrims segments ++
      [FilterPart.concat
        ((List.range segments.length).flatMap
          fun i => ["v" ++ toString i, "a" ++ toString i])
        segments.length "outv" "outa"] := by
  simp only [build_trim_concat_filter]
  cases t with
  | false => rw [if_neg (by simp)]
  | true => rw [if_neg (by simpa using h)]

theorem ne_of_head {s t : String} (h : s.data.head? ≠ t.data.head?) : s ≠ t :=
  fun he => h (he ▸ rfl)

/-- A label whose first character is not `o` is none of the three output
port names. -/
theorem not_out_of_head {s : String} (h : s.data.head? ≠ some 'o') :
    s ≠ "outa" ∧ s ≠ "outv" ∧ s ≠ "outa_pre" := by
  refine ⟨?_, ?_, ?_⟩ <;> (intro he; subst he; exact h rfl)

theorem vinLabel_head (i : Nat) :
    (vinLabel i).data.head? = some 'v' ∨ (vinLabel i).data.head? = some 'x' := by
  unfold vinLabel
  split
  · exact Or.inl rfl
  · exact Or.inr rfl

theorem ainLabel_head (i : Nat) :
    (ainLabel i).data.head? = some 'a' ∨ (ainLabel i).data.head? = some 'x' := by
  unfold ainLabel
  split
  · exact Or.inl rfl
  · exact Or.inr rfl

/-- No statement of a built graph consumes a label starting with `o`: in
particular neither `outa` nor `outv` nor `outa_pre` is ever an input. -/
theorem build_inputs_head (segments : List Seg) (t : Bool) :
    ∀ p ∈ build_trim_concat_filter segments t, ∀ l ∈ p.inputs,
      l.data.head? ≠ some 'o' := by
  intro p hp l hl
  by_cases hc : t = true ∧ segments.length > 1
  · obtain ⟨rfl, hn⟩ := hc
    rw [build_eq_transitions segments hn] at hp
    simp only [List.append_assoc, List.mem_append] at hp
    rcases hp with hp | hp | hp | hp
    · obtain ⟨q, _, rfl⟩ := List.mem_map.mp hp
      simp only [FilterPart.inputs, List.mem_singleton] at hl
      subst hl
      decide
    · obtain ⟨q, _, rfl⟩ := List.mem_map.mp hp
      simp only [FilterPart.inputs, List.mem_singleton] at hl
      subst hl
      decide
    · rw [xfadeChain_eq] at hp
      obtain ⟨i, _, rfl⟩ := List.mem_map.mp hp
      simp only [FilterPart.inputs, List.mem_cons, List.not_mem_nil, or_false] at hl
      rcases hl with rfl | rfl
      · rcases vinLabel_head i with h | h <;> rw [h] <;> decide
      · rw [show ("v" ++ toString i).data.head? = some 'v' from rfl]
        decide
    · rw [acrossfadeChain_eq] at hp
      obtain ⟨i, _, rfl⟩ := List.mem_map.mp hp
      simp only [FilterPart.inputs, List.mem_cons, List.not_mem_nil, or_false] at hl
      rcases hl with rfl | rfl
      · rcases ainLabel_head i with h | h <;> rw [h] <;> decide
      · rw [show ("a" ++ toString i).data.head? = some 'a' from rfl]
        decide
  · rw [build_eq_plain segments t hc] at hp
    simp only [List.append_assoc, List.mem_append, List.mem_singleton] at hp
    rcases hp with hp | hp | hp
    · obtain ⟨q, _, rfl⟩ := List.mem_map.mp hp
      simp only [FilterPart.inputs, List.mem_singleton] at hl
      subst hl
      decide
    · obtain ⟨q, _, rfl⟩ := List.mem_map.mp hp
      simp only [FilterPart.inputs, List.mem_singleton] at hl
      subst hl
      decide
    · subst hp
      simp only [FilterPart.inputs] at hl
      obtain ⟨i, _, hmem⟩ := List.mem_flatMap.mp hl
      simp only [List.mem_cons, List.not_mem_nil, or_false] at hmem
      rcases hmem with rfl | rfl
      · rw [show ("v" ++ toString i).data.head? = some 'v' from rfl]
        decide
      · rw [show ("a" ++ toString i).data.head? = some 'a' from rfl]
        decide

/-- Every output label of a built graph is `outv`, `outa`, or an internal
label (not starting with `o`) that some other statement of the same graph
consumes. -/
theorem build_outputs_spec (segments : List Seg) (t : Bool) :
    ∀ p ∈ build_trim_concat_filter segments t, ∀ l ∈ p.outputs,
      l = "outv" ∨ l = "outa" ∨
        (l.data.head? ≠ some 'o' ∧
          ∃ q ∈ build_trim_concat_filter segments t, l ∈ q.inputs) := by
  intro p hp l hl
  by_cases hc : t = true ∧ segments.length > 1
  · obtain ⟨rfl, hn⟩ := hc
    rw [build_eq_transitions segments hn] at hp ⊢
    simp only [List.append_assoc, List.mem_append] at hp
    rcases hp with hp | hp | hp | hp
    · obtain ⟨q, hq, rfl⟩ := List.mem_map.mp hp
      obtain ⟨i, sg⟩ := q
      obtain ⟨hi, -⟩ := List.mem_enum hq
      simp only [FilterPart.outputs, List.mem_singleton] at hl
      subst hl
      refine Or.inr (Or.inr ⟨by
        rw [show ("v" ++ toString i).data.head? = some 'v' from rfl]; decide, ?_⟩)
      rcases Nat.eq_zero_or_pos i with rfl | hi1
      · refine ⟨FilterPart.xfade (vinLabel 1) ("v" ++ toString 1) transition_duration
          ((1 : ℚ) * (1/2)) (voutLabel segments.length 1), ?_, ?_⟩
        · simp only [List.append_assoc, List.mem_append]
          refine Or.inr (Or.inr (Or.inl ?_))
          rw [xfadeChain_eq]
          exact List.mem_map.mpr ⟨1, List.mem_range'_1.mpr (by omega), by norm_num⟩
        · simp only [FilterPart.inputs, List.mem_cons]
          left
          rw [show vinLabel 1 = "v0" from rfl]
          decide
      · refine ⟨FilterPart.xfade (vinLabel i) ("v" ++ toString i) transition_duration
          ((i : ℚ) * (1/2)) (voutLabel segments.length i), ?_, ?_⟩
        · simp only [List.append_assoc, List.mem_append]
          refine Or.inr (Or.inr (Or.inl ?_))
          rw [xfadeChain_eq]
          exact List.mem_map.mpr ⟨i, List.mem_range'_1.mpr (by omega), rfl⟩
        · simp only [FilterPart.inputs, List.mem_cons]
          exact Or.inr (Or.inl trivial)
    · obtain ⟨q, hq, rfl⟩ := List.mem_map.mp hp
      obtain ⟨i, sg⟩ := q
      obtain ⟨hi, -⟩ := List.mem_enum hq
      simp only [FilterPart.outputs, List.mem_singleton] at hl
      subst hl
      refine Or.inr (Or.inr ⟨by
        rw [show ("a" ++ toString i).data.head? = some 'a' from rfl]; decide, ?_⟩)
      rcases Nat.eq_zero_or_pos i with rfl | hi1
      · refine ⟨FilterPart.acrossfade (ainLabel 1) ("a" ++ toString 1)
          transition_duration (aoutLabel segments.length 1), ?_, ?_⟩
        · simp only [List.append_assoc, List.mem_append]
          refine Or.inr (Or.inr (Or.inr ?_))
          rw [acrossfadeChain_eq]
          exact List.mem_map.mpr ⟨1, List.mem_range'_1.mpr (by omega), by norm_num⟩
        · simp only [FilterPart.inputs, List.mem_cons]
          left
          rw [show ainLabel 1 = "a0" from rfl]
          decide
      · refine ⟨FilterPart.acrossfade (ainLabel i) ("a" ++ toString i)
          transition_duration (aoutLabel segments.length i), ?_, ?_⟩
        · simp only [List.append_assoc, List.mem_append]
          refine Or.inr (Or.inr (Or.inr ?_))
          rw [acrossfadeChain_eq]
          exact List.mem_map.mpr ⟨i, List.mem_range'_1.mpr (by omega), rfl⟩
        · simp only [FilterPart.inputs, List.mem_cons]
          exact Or.inr (Or.inl trivial)
    · rw [xfadeChain_eq] at hp
      obtain ⟨i, hi, rfl⟩ := List.mem_map.mp hp
      rw [List.mem_range'_1] at hi
      simp only [FilterPart.outputs, List.mem_singleton] at hl
      subst hl
      unfold voutLabel
      by_cases hin : i < segments.length - 1
      · rw [if_pos hin]
        refine Or.inr (Or.inr ⟨by
          rw [show ("xv" ++ toString i).data.head? = some 'x' from rfl]; decide, ?_⟩)
        refine ⟨FilterPart.xfade (vinLabel (i + 1)) ("v" ++ toString (i + 1))
          transition_duration (((i + 1 : Nat) : ℚ) * (1/2))
          (voutLabel segments.length (i + 1)), ?_, ?_⟩
        · simp only [List.append_assoc, List.mem_append]
          refine Or.inr (Or.inr (Or.inl ?_))
          rw [xfadeChain_eq]
          exact List.mem_map.mpr ⟨i + 1, List.mem_range'_1.mpr (by omega), rfl⟩
        · simp only [FilterPart.inputs, List.mem_cons]
          left
          unfold vinLabel
          rw [if_neg (by omega), Nat.add_sub_cancel]
      · rw [if_neg hin]
        exact Or.inl rfl
    · rw [acrossfadeChain_eq] at hp
      obtain ⟨i, hi, rfl⟩ := List.mem_map.mp hp
      rw [List.mem_range'_1] at hi
      simp only [FilterPart.outputs, List.mem_singleton] at hl
      subst hl
      unfold aoutLabel
      by_cases hin : i < segments.length - 1
      · rw [if_pos hin]
        refine Or.inr (Or.inr ⟨by
          rw [show ("xa" ++ toString i).data.head? = some 'x' from rfl]; decide, ?_⟩)
        refine ⟨FilterPart.acrossfade (ainLabel (i + 1)) ("a" ++ toString (i + 1))
          transition_duration (aoutLabel segments.length (i + 1)), ?_, ?_⟩
        · simp only [List.append_assoc, List.mem_append]
          refine Or.inr (Or.inr (Or.inr ?_))
          rw [acrossfadeChain_eq]
          exact List.mem_map.mpr ⟨i + 1, List.mem_range'_1.mpr (by omega), rfl⟩
        · simp only [FilterPart.inputs, List.mem_cons]
          left
          unfold ainLabel
          rw [if_neg (by omega), Nat.add_sub_cancel]
      · rw [if_neg hin]
        exact Or.inr (Or.inl rfl)
  · rw [build_eq_plain segments t hc] at hp ⊢
    simp only [List.append_assoc, List.mem_append, List.mem_singleton] at hp
    rcases hp with hp | hp | hp
    · obtain ⟨q, hq, rfl⟩ := List.mem_map.mp hp
      obtain ⟨i, sg⟩ := q
      obtain ⟨hi, -⟩ := List.mem_enum hq
      simp only [FilterPart.outputs, List.mem_singleton] at hl
      subst hl
      refine Or.inr (Or.inr ⟨by
        rw [show ("v" ++ toString i).data.head? = some 'v' from rfl]; decide, ?_⟩)
      refine ⟨FilterPart.concat
        ((List.range segments.length).flatMap
          fun j => ["v" ++ toString j, "a" ++ toString j])
        segments.length "outv" "outa", ?_, ?_⟩
      · simp only [List.append_assoc, List.mem_append, List.mem_singleton]
        exact Or.inr (Or.inr trivial)
      · simp only [FilterPart.inputs]
        exact List.mem_flatMap.mpr ⟨i, List.mem_range.mpr hi, List.mem_cons_self _ _⟩
    · obtain ⟨q, hq, rfl⟩ := List.mem_map.mp hp
      obtain ⟨i, sg⟩ := q
      obtain ⟨hi, -⟩ := List.mem_enum hq
      simp only [FilterPart.outputs, List.mem_singleton] at hl
      subst hl
      refine Or.inr (Or.inr ⟨by
        rw [show ("a" ++ toString i).data.head? = some 'a' from rfl]; decide, ?_⟩)
      refine ⟨FilterPart.concat
        ((List.range segments.length).flatMap
          fun j => ["v" ++ toString j, "a" ++ toString j])
        segments.length "outv" "outa", ?_, ?_⟩
      · simp only [List.append_assoc, List.mem_append, List.mem_singleton]
        exact Or.inr (Or.inr trivial)
      · simp only [FilterPart.inputs]
        exact List.mem_flatMap.mpr ⟨i, List.mem_range.mpr hi,
          List.mem_cons_of_mem _ (List.mem_cons_self _ _)⟩
    · subst hp
      simp only [FilterPart.outputs, List.mem_cons, List.not_mem_nil, or_false] at hl
      rcases hl with rfl | rfl
      · exact Or.inl rfl
      · exact Or.inr (Or.inl rfl)

/-- `outv` and `outa` are outputs of some statement of every built graph. -/
theorem build_has_out_ports (segments : List Seg) (t : Bool) :
    (∃ p ∈ build_trim_concat_filter segments t, "outv" ∈ p.outputs) ∧
    (∃ p ∈ build_trim_concat_filter segments t, "outa" ∈ p.outputs) := by
  by_cases hc : t = true ∧ segments.length > 1
  · obtain ⟨rfl, hn⟩ := hc
    rw [build_eq_transitions segments hn]
    constructor
    · refine ⟨FilterPart.xfade (vinLabel (segments.length - 1))
        ("v" ++ toString (segments.length - 1)) transition_duration
        (((segments.length - 1 : Nat) : ℚ) * (1/2))
        (voutLabel segments.length (segments.length - 1)), ?_, ?_⟩
      · simp only [List.append_assoc, List.mem_append]
        refine Or.inr (Or.inr (Or.inl ?_))
        rw [xfadeChain_eq]
        exact List.mem_map.mpr ⟨segments.length - 1,
          List.mem_range'_1.mpr (by omega), rfl⟩
      · simp only [FilterPart.outputs, List.mem_singleton]
        unfold voutLabel
        rw [if_neg (by omega)]
    · refine ⟨FilterPart.acrossfade (ainLabel (segments.length - 1))
        ("a" ++ toString (segments.length - 1)) transition_duration
        (aoutLabel segments.length (segments.length - 1)), ?_, ?_⟩
      · simp only [List.append_assoc, List.mem_append]
        refine Or.inr (Or.inr (Or.inr ?_))
        rw [acrossfadeChain_eq]
        exact List.mem_map.mpr ⟨segments.length - 1,
          List.mem_range'_1.mpr (by omega), rfl⟩
      · simp only [FilterPart.outputs, List.mem_singleton]
        unfold aoutLabel
        rw [if_neg (by omega)]
  · rw [build_eq_plain segments t hc]
    constructor
    · refine ⟨FilterPart.concat
        ((List.range segments.length).flatMap
          fun j => ["v" ++ toString j, "a" ++ toString j])
        segments.length "outv" "outa", ?_, ?_⟩
      · simp only [List.append_assoc, List.mem_append, List.mem_singleton]
        exact Or.inr (Or.inr trivial)
      · simp only [FilterPart.outputs, List.mem_cons]
        exact Or.inl trivial
    · refine ⟨FilterPart.concat
        ((List.range segments.length).flatMap
          fun j => ["v" ++ toString j, "a" ++ toString j])
        segments.length "outv" "outa", ?_, ?_⟩
      · simp only [List.append_assoc, List.mem_append, List.mem_singleton]
        exact Or.inr (Or.inr trivial)
      · simp only [FilterPart.outputs, List.mem_cons]
        exact Or.inr (Or.inl trivial)

/-! ### The enhancement splice preserves the exposed ports -/

theorem renameLabel_ne_outa (x : String) :
    renameLabel "outa" "outa_pre" x ≠ "outa" := by
  unfold renameLabel
  split
  · decide
  · assumption

theorem rename_inputs_outa (p : FilterPart) :
    (FilterPart.rename "outa" "outa_pre" p).inputs =
      p.inputs.map (renameLabel "outa" "outa_pre") := by
  cases p <;> rfl

theorem rename_outputs_outa (p : FilterPart) :
    (FilterPart.rename "outa" "outa_pre" p).outputs =
      p.outputs.map (renameLabel "outa" "outa_pre") := by
  cases p <;> rfl

/-- The exposed ports of every graph built by `build_trim_concat_filter`
are exactly `outv` and `outa`. -/
theorem build_exposed_iff (segments : List Seg) (t : Bool) (l : String) :
    is_exposed (build_trim_concat_filter segments t) l ↔
      (l = "outv" ∨ l = "outa") := by
  constructor
  · rintro ⟨⟨p, hp, hl⟩, hnin⟩
    rcases build_outputs_spec segments t p hp l hl with h | h | ⟨-, q, hq, hql⟩
    · exact Or.inl h
    · exact Or.inr h
    · exact absurd hql (hnin q hq)
  · intro h
    rcases h with rfl | rfl
    · exact ⟨(build_has_out_ports segments t).1, fun p hp hin =>
        build_inputs_head segments t p hp _ hin rfl⟩
    · exact ⟨(build_has_out_ports segments t).2, fun p hp hin =>
        build_inputs_head segments t p hp _ hin rfl⟩

/-- The exposed ports of an enhancement-spliced graph are also exactly
`outv` and `outa`. -/
theorem spliced_exposed_iff (segments : List Seg) (t : Bool) (l : String) :
    is_exposed (spliceEnhancement (build_trim_concat_filter segments t)) l ↔
      (l = "outv" ∨ l = "outa") := by
  constructor
  · rintro ⟨⟨p, hp, hl⟩, hnin⟩
    rw [spliceEnhancement, List.mem_append] at hp
    rcases hp with hp | hp
    · obtain ⟨p0, hp0, rfl⟩ := List.mem_map.mp hp
      rw [rename_outputs_outa] at hl
      obtain ⟨x, hx, rfl⟩ := List.mem_map.mp hl
      by_cases hxa : x = "outa"
      · subst hxa
        exfalso
        have hmem : (FilterPart.afilter "outa_pre" build_audio_enhancement_filter "outa")
            ∈ spliceEnhancement (build_trim_concat_filter segments t) := by
          rw [spliceEnhancement, List.mem_append]
          exact Or.inr (List.mem_singleton.mpr rfl)
        apply hnin _ hmem
        simp only [FilterPart.inputs, List.mem_singleton]
        decide
      · rw [renameLabel, if_neg hxa]
        rcases build_outputs_spec segments t p0 hp0 x hx with h | h | ⟨-, q, hq, hql⟩
        · exact Or.inl h
        · exact absurd h hxa
        · exfalso
          apply hnin (FilterPart.rename "outa" "outa_pre" q)
          · rw [spliceEnhancement, List.mem_append]
            exact Or.inl (List.mem_map_of_mem _ hq)
          · rw [rename_inputs_outa]
            exact List.mem_map_of_mem _ hql
    · rw [List.mem_singleton] at hp
      subst hp
      simp only [FilterPart.outputs, List.mem_singleton] at hl
      exact Or.inr hl
  · intro h
    constructor
    · rcases h with rfl | rfl
      · obtain ⟨p, hp, hop⟩ := (build_has_out_ports segments t).1
        refine ⟨FilterPart.rename "outa" "outa_pre" p, ?_, ?_⟩
        · rw [spliceEnhancement, List.mem_append]
          exact Or.inl (List.mem_map_of_mem _ hp)
        · rw [rename_outputs_outa]
          rw [show ("outv" : String) = renameLabel "outa" "outa_pre" "outv" from by decide]
          exact List.mem_map_of_mem _ hop
      · refine ⟨FilterPart.afilter "outa_pre" build_audio_enhancement_filter "outa", ?_, ?_⟩
        · rw [spliceEnhancement, List.mem_append]
          exact Or.inr (List.mem_singleton.mpr rfl)
        · simp [FilterPart.outputs]
    · intro p hp hin
      rw [spliceEnhancement, List.mem_append] at hp
      rcases hp with hp | hp
      · obtain ⟨p0, hp0, rfl⟩ := List.mem_map.mp hp
        rw [rename_inputs_outa] at hin
        obtain ⟨x, hx, hrx⟩ := List.mem_map.mp hin
        rcases h with rfl | rfl
        · by_cases hxa : x = "outa"
          · subst hxa
            rw [show renameLabel "outa" "outa_pre" "outa" = "outa_pre" from by decide] at hrx
            exact absurd hrx (by decide)
          · rw [renameLabel, if_neg hxa] at hrx
            subst hrx
            exact build_inputs_head segments t p0 hp0 _ hx rfl
        · exact renameLabel_ne_outa x hrx
      · rw [List.mem_singleton] at hp
        subst hp
        simp only [FilterPart.inputs, List.mem_singleton] at hin
        rcases h with rfl | rfl
        · exact absurd hin (by decide)
        · exact absurd hin (by decide)

/-! ## Claims about the filter graph builder -/

/-- Claim C1 (code bug): in the transitions-enabled graph the crossfade
offset of stage `i` is the fixed per-step constant `i * 0.5`, independent
of the segment lengths — for the two-segment timelines `[(0,1),(2,4)]` and
`[(0,10),(20,40)]` the emitted offset is `0.5` in both cases, while the
offset required by the spec (cumulative rendered duration so far minus the
crossfade duration) is `0.85` resp. `9.85`. -/
theorem xfade_offset_is_fixed_not_cumulative :
    xfadeOffsets (build_trim_concat_filter [(0, 1), (2, 4)] true) = [1/2] ∧
    xfadeOffsets (build_trim_concat_filter [(0, 10), (20, 40)] true) = [1/2] ∧
    spec_xfade_offset [(0, 1), (2, 4)] transition_duration 1 = 17/20 ∧
    spec_xfade_offset [(0, 10), (20, 40)] transition_duration 1 = 197/20 ∧
    (1/2 : ℚ) ≠ 17/20 ∧ (1/2 : ℚ) ≠ 197/20 := by
  refine ⟨?_, ?_, ?_, ?_, by norm_num, by norm_num⟩
  · norm_num [build_trim_concat_filter, xfadeChain, acrossfadeChain, xfadeStep,
      acrossfadeStep, xfadeOffsets, List.enum, List.enumFrom, transition_duration]
  · norm_num [build_trim_concat_filter, xfadeChain, acrossfadeChain, xfadeStep,
      acrossfadeStep, xfadeOffsets, List.enum, List.enumFrom, transition_duration]
  · norm_num [spec_xfade_offset, transition_duration]
  · norm_num [spec_xfade_offset, transition_duration]

/-- Claim C7: for every timeline, enabling audio enhancement splices the
enhancement sub-chain onto the final audio output (the `outa` port is
redirected through the sub-chain and re-bound to `outa`, as embedded in
`spliceEnhancement`), and the enhanced graph exposes exactly the same
output port labels as the unenhanced graph, namely exactly `outv` and
`outa`. -/
theorem audio_enhancement_preserves_ports (segments : List Seg)
    (t : Bool) (l : String) :
    (is_exposed (process_video_filter segments true t) l ↔
      is_exposed (process_video_filter segments false t) l) ∧
    (is_exposed (process_video_filter segments false t) l ↔
      (l = "outv" ∨ l = "outa")) := by
  have h1 : process_video_filter segments true t =
      spliceEnhancement (build_trim_concat_filter segments t) := by
    simp [process_video_filter]
  have h2 : process_video_filter segments false t =
      build_trim_concat_filter segments t := by
    simp [process_video_filter]
  rw [h1, h2, spliced_exposed_iff, build_exposed_iff]
  exact ⟨Iff.rfl, Iff.rfl⟩

/-- Claim C6: for a timeline with at most one interval,
`build_trim_concat_filter` with transitions enabled produces exactly the
output of `build_trim_concat_filter` with transitions disabled. -/
theorem build_filter_single_segment_fallback (segments : List Seg)
    (h : segments.length ≤ 1) :
    build_trim_concat_filter segments true = build_trim_concat_filter segments false := by
  simp only [build_trim_concat_filter]
  rw [if_neg (by simp only [true_and]; omega), if_neg (by simp)]

/-- Witness for C6: the fallback at the single-interval timeline `[(0,1)]`. -/
theorem build_filter_single_segment_fallback_witness :
    [((0 : ℚ), (1 : ℚ))].length ≤ 1 ∧
      build_trim_concat_filter [((0 : ℚ), (1 : ℚ))] true =
        build_trim_concat_filter [((0 : ℚ), (1 : ℚ))] false :=
  ⟨by simp, build_filter_single_segment_fallback [((0 : ℚ), (1 : ℚ))] (by simp)⟩

/-! ## Smart naming engine (generate_smart_filename, lines 111-166) -/

/-- A Python regex word character (`\w` over ASCII): letter, digit or
underscore — the alphabet delimiting `\b` word boundaries. -/
def isWordChar (c : Char) : Bool := c.isAlphanum || c = '_'

/-- Maximal runs of word characters, in order; `acc` holds the reversed
run under construction. -/
def wordRunsAux : List Char → List Char → List (List Char)
  | acc, [] => if acc = [] then [] else [acc.reverse]
  | acc, c :: cs =>
    if isWordChar c then wordRunsAux (c :: acc) cs
    else if acc = [] then wordRunsAux [] cs
    else acc.reverse :: wordRunsAux [] cs

/-- Maximal runs of word characters of a string's characters. -/
def wordRuns (s : List Char) : List (List Char) := wordRunsAux [] s

/-- Embedding of `re.findall(r"\b[a-zA-Z]{3,}\b", s)` (line 148): the
maximal word-character runs that are purely alphabetic and at least three
characters long. -/
def findAlpha3 (s : List Char) : List (List Char) :=
  (wordRuns s).filter fun r => r.all Char.isAlpha && decide (3 ≤ r.length)

/-- Embedding of `re.findall(r"\b[a-zA-Z]+\b", s)` (line 153): the maximal
word-character runs that are purely alphabetic. -/
def findAllAlpha (s : List Char) : List (List Char) :=
  (wordRuns s).filter fun r => r.all Char.isAlpha

/-- The stop-word set of lines 129-145, transcribed verbatim (the Python
set literal contains the multi-word entry `you know` and a repeated `no`;
both are kept). -/
def stop_words : List String :=
  ["the", "a", "an", "and", "or", "but", "in", "on", "at", "to", "for",
   "of", "with", "by", "from", "as", "is", "was", "are", "were", "been",
   "be", "have", "has", "had", "do", "does", "did", "will", "would",
   "could", "should", "may", "might", "must", "shall", "can", "this",
   "that", "these", "those", "i", "you", "he", "she", "it", "we", "they",
   "what", "which", "who", "when", "where", "why", "how", "all", "each",
   "every", "both", "few", "more", "most", "other", "some", "such", "no",
   "nor", "not", "only", "own", "same", "so", "than", "too", "very", "just",
   "um", "uh", "like", "you know", "basically", "actually", "really",
   "gonna", "wanna", "gotta", "okay", "ok", "hey", "hi", "hello", "well",
   "right", "yeah", "yes", "no", "maybe", "think", "know", "see", "look",
   "come", "go", "get", "make", "take", "say", "said", "says", "let",
   "let\x27s", "i\x27m", "i\x27ll", "i\x27ve", "it\x27s", "that\x27s",
   "there\x27s", "here\x27s", "what\x27s", "don\x27t", "doesn\x27t",
   "didn\x27t", "won\x27t", "wouldn\x27t", "couldn\x27t", "shouldn\x27t",
   "can\x27t", "haven\x27t", "hasn\x27t", "hadn\x27t", "isn\x27t",
   "aren\x27t", "wasn\x27t", "weren\x27t"]

/-- Python `str.strip()` on a character list. -/
def stripChars (l : List Char) : List Char :=
  ((l.dropWhile Char.isWhitespace).reverse.dropWhile Char.isWhitespace).reverse

/-- Lines 125-126: `re.split(r"[.!?]", text)[0].strip()` — the prefix of
the text before the first sentence terminator, stripped.  (`re.split`
always returns at least one element, so the `else` arm of line 126 is
unreachable.) -/
def firstSentence (text : List Char) : List Char :=
  stripChars (text.takeWhile fun c => !(c = '.' || c = '!' || c = '?'))

/-- Lines 148-149: the stop-word-filtered meaningful words, truncated to
`max_words`. -/
def meaningfulWords (lowered : List Char) (max_words : Nat) : List (List Char) :=
  ((findAlpha3 lowered).filter fun w => !(stop_words.contains (String.mk w))).take
    max_words

/-- Lines 148-154: the meaningful words, or — when none survive the
filter — the fallback of the first `max_words` raw alphabetic tokens. -/
def chooseWords (lowered : List Char) (max_words : Nat) : List (List Char) :=
  let m := meaningfulWords lowered max_words
  if m = [] then (findAllAlpha lowered).take max_words else m

/-- Python `"_".join(words)` (line 160). -/
def joinUnderscore : List (List Char) → List Char
  | [] => []
  | [w] => w
  | w :: ws => w ++ '_' :: joinUnderscore ws

/-- A character kept by `re.sub(r"[^a-z0-9_]", "", filename)` (line 162). -/
def isFilenameChar (c : Char) : Bool :=
  ('a' ≤ c && c ≤ 'z') || ('0' ≤ c && c ≤ '9') || c = '_'

/-- `first_sentence.lower()` (lines 148 and 153): the character list the
two `re.findall` calls operate on. -/
def loweredSentence (transcript : String) : List Char :=
  (firstSentence (stripChars transcript.data)).map Char.toLower

/-- Embedding of `generate_smart_filename(transcript, max_words)` (lines
111-166).  The timestamp `datetime.now().strftime("%Y%m%d_%H%M%S")` of the
fallback name is passed in as the parameter `now`. -/
def generate_smart_filename (now transcript : String) (max_words : Nat) : String :=
  if transcript = "" ∨ (stripChars transcript.data).length < 10 then
    "edited_video_" ++ now
  else if chooseWords (loweredSentence transcript) max_words = [] then
    "edited_video_" ++ now
  else
    String.mk (((joinUnderscore (chooseWords (loweredSentence transcript) max_words)).filter
      isFilenameChar).take 50)

/-! ### Character-level helper lemmas -/

theorem char_isUpper_iff (d : Char) :
    d.isUpper = true ↔ (65 ≤ d.toNat ∧ d.toNat ≤ 90) := by
  rw [Char.isUpper, Bool.and_eq_true, decide_eq_true_eq, decide_eq_true_eq]
  exact Iff.rfl

theorem char_isLower_iff (d : Char) :
    d.isLower = true ↔ (97 ≤ d.toNat ∧ d.toNat ≤ 122) := by
  rw [Char.isLower, Bool.and_eq_true, decide_eq_true_eq, decide_eq_true_eq]
  exact Iff.rfl

theorem char_isDigit_iff (d : Char) :
    d.isDigit = true ↔ (48 ≤ d.toNat ∧ d.toNat ≤ 57) := by
  rw [Char.isDigit, Bool.and_eq_true, decide_eq_true_eq, decide_eq_true_eq]
  exact Iff.rfl

theorem char_ofNat_toNat {n : Nat} (h : n.isValidChar) : (Char.ofNat n).toNat = n := by
  rw [Char.ofNat, dif_pos h]
  rfl

/-- `Char.toLower` never produces an ASCII uppercase letter. -/
theorem toLower_not_upper (c : Char) : (Char.toLower c).isUpper = false := by
  rw [Char.toLower]
  split
  next h =>
    rw [Bool.eq_false_iff]
    intro hu
    rw [char_isUpper_iff] at hu
    rw [char_ofNat_toNat (Or.inl (by omega))] at hu
    omega
  next h =>
    rw [Bool.eq_false_iff]
    intro hu
    rw [char_isUpper_iff] at hu
    exact h hu

/-- An alphabetic character in the image of `Char.toLower` lies in
`a`-`z`. -/
theorem toLower_alpha_bounds {c : Char} (c0 : Char) (he : Char.toLower c0 = c)
    (h : c.isAlpha = true) : 'a' ≤ c ∧ c ≤ 'z' := by
  subst he
  rw [Char.isAlpha, Bool.or_eq_true] at h
  rcases h with hu | hl
  · rw [toLower_not_upper c0] at hu
    exact absurd hu (by decide)
  · rw [char_isLower_iff] at hl
    constructor
    · show (97 : Nat) ≤ (Char.toLower c0).toNat
      exact hl.1
    · show (Char.toLower c0).toNat ≤ 122
      exact hl.2

theorem isFilenameChar_of_lower {c : Char} (h1 : 'a' ≤ c) (h2 : c ≤ 'z') :
    isFilenameChar c = true := by
  simp [isFilenameChar, h1, h2]

/-! ### Word-run helper lemmas -/

theorem wordRunsAux_ne_nil :
    ∀ (l acc : List Char), ∀ r ∈ wordRunsAux acc l, r ≠ [] := by
  intro l
  induction l with
  | nil =>
    intro acc r hr
    rw [wordRunsAux] at hr
    split at hr
    · simp at hr
    · next hacc =>
      rw [List.mem_singleton] at hr
      subst hr
      simpa using hacc
  | cons c cs ih =>
    intro acc r hr
    rw [wordRunsAux] at hr
    split at hr
    · exact ih _ r hr
    · split at hr
      · exact ih _ r hr
      · next _ hacc =>
        rcases List.mem_cons.mp hr with rfl | hr
        · simpa using hacc
        · exact ih _ r hr

theorem wordRunsAux_mem :
    ∀ (l acc : List Char), ∀ r ∈ wordRunsAux acc l, ∀ c ∈ r, c ∈ acc ∨ c ∈ l := by
  intro l
  induction l with
  | nil =>
    intro acc r hr c hc
    rw [wordRunsAux] at hr
    split at hr
    · simp at hr
    · rw [List.mem_singleton] at hr
      subst hr
      exact Or.inl (List.mem_reverse.mp hc)
  | cons a cs ih =>
    intro acc r hr c hc
    rw [wordRunsAux] at hr
    split at hr
    · rcases ih _ r hr c hc with h | h
      · rcases List.mem_cons.mp h with rfl | h
        · exact Or.inr (List.mem_cons_self _ _)
        · exact Or.inl h
      · exact Or.inr (List.mem_cons_of_mem _ h)
    · split at hr
      · rcases ih _ r hr c hc with h | h
        · simp at h
        · exact Or.inr (List.mem_cons_of_mem _ h)
      · rcases List.mem_cons.mp hr with rfl | hr
        · exact Or.inl (List.mem_reverse.mp hc)
        · rcases ih _ r hr c hc with h | h
          · simp at h
          · exact Or.inr (List.mem_cons_of_mem _ h)

/-- Every word chosen by `chooseWords` is a nonempty, purely alphabetic
run of characters of `lowered`. -/
theorem chooseWords_sound (lowered : List Char) (mw : Nat) :
    ∀ w ∈ chooseWords lowered mw,
      w ≠ [] ∧ ∀ c ∈ w, c.isAlpha = true ∧ c ∈ lowered := by
  intro w hw
  simp only [chooseWords, meaningfulWords] at hw
  split at hw
  · have hw' := List.mem_of_mem_take hw
    rw [findAllAlpha] at hw'
    obtain ⟨hrun, hall⟩ := List.mem_filter.mp hw'
    refine ⟨wordRunsAux_ne_nil lowered [] w hrun, fun c hc => ?_⟩
    refine ⟨List.all_eq_true.mp hall c hc, ?_⟩
    rcases wordRunsAux_mem lowered [] w hrun c hc with h | h
    · simp at h
    · exact h
  · have hw1 := List.mem_of_mem_filter (List.mem_of_mem_take hw)
    rw [findAlpha3] at hw1
    obtain ⟨hrun, hcond⟩ := List.mem_filter.mp hw1
    rw [Bool.and_eq_true] at hcond
    refine ⟨wordRunsAux_ne_nil lowered [] w hrun, fun c hc => ?_⟩
    refine ⟨List.all_eq_true.mp hcond.1 c hc, ?_⟩
    rcases wordRunsAux_mem lowered [] w hrun c hc with h | h
    · simp at h
    · exact h

/-! ### Filename guarantees -/

theorem string_data_append (s t : String) : (s ++ t).data = s.data ++ t.data := rfl

theorem mk_ne_empty {l : List Char} (h : l ≠ []) : String.mk l ≠ "" := by
  intro he
  exact h (congrArg String.data he)

/-- The timestamp fallback name is non-empty, filesystem-safe and within
the length bound. -/
theorem fallback_name_props (now : String) (hlen : now.length = 15)
    (hchars : ∀ c ∈ now.data, c.isDigit = true ∨ c = '_') :
    ("edited_video_" ++ now : String) ≠ "" ∧
    (∀ c ∈ ("edited_video_" ++ now : String).data,
      ('a' ≤ c ∧ c ≤ 'z') ∨ ('0' ≤ c ∧ c ≤ '9') ∨ c = '_') ∧
    ("edited_video_" ++ now : String).length ≤ 50 := by
  refine ⟨?_, ?_, ?_⟩
  · intro he
    have h2 := congrArg String.data he
    rw [string_data_append] at h2
    have h3 := List.append_eq_nil.mp h2
    exact absurd h3.1 (by decide)
  · intro c hc
    rw [string_data_append, List.mem_append] at hc
    rcases hc with hc | hc
    · exact (by decide : ∀ c ∈ ("edited_video_" : String).data,
        ((('a' ≤ c ∧ c ≤ 'z') ∨ ('0' ≤ c ∧ c ≤ '9') ∨ c = '_'))) c hc
    · rcases hchars c hc with hd | rfl
      · rw [char_isDigit_iff] at hd
        refine Or.inr (Or.inl ⟨?_, ?_⟩)
        · show (48 : Nat) ≤ c.toNat
          exact hd.1
        · show c.toNat ≤ 57
          exact hd.2
      · exact Or.inr (Or.inr rfl)
  · show ("edited_video_".data ++ now.data).length ≤ 50
    rw [List.length_append]
    have h15 : now.data.length = 15 := hlen
    rw [h15]
    decide

/-- Every character surviving the line-162 substitution is in
`[a-z0-9_]`. -/
theorem filter_take_charset (l : List Char) :
    ∀ c ∈ (l.filter isFilenameChar).take 50,
      ('a' ≤ c ∧ c ≤ 'z') ∨ ('0' ≤ c ∧ c ≤ '9') ∨ c = '_' := by
  intro c hc
  have hb := (List.mem_filter.mp (List.mem_of_mem_take hc)).2
  simp only [isFilenameChar, Bool.or_eq_true, Bool.and_eq_true,
    decide_eq_true_eq] at hb
  tauto

theorem joinUnderscore_cons (w : List Char) (ws : List (List Char)) :
    ∃ t, joinUnderscore (w :: ws) = w ++ t := by
  cases ws with
  | nil => exact ⟨[], by simp [joinUnderscore]⟩
  | cons w2 ws2 => exact ⟨'_' :: joinUnderscore (w2 :: ws2), by simp [joinUnderscore]⟩

/-- When some words survive, the main path of the naming engine produces a
non-empty character list. -/
theorem smart_main_ne_empty (transcript : String) (mw : Nat)
    (hne : chooseWords (loweredSentence transcript) mw ≠ []) :
    ((joinUnderscore (chooseWords (loweredSentence transcript) mw)).filter
      isFilenameChar).take 50 ≠ [] := by
  obtain ⟨w, ws, hcw⟩ := List.exists_cons_of_ne_nil hne
  have hsound := chooseWords_sound (loweredSentence transcript) mw w
    (hcw ▸ List.mem_cons_self _ _)
  have hfw : w.filter isFilenameChar = w := by
    apply List.filter_eq_self.mpr
    intro c hc
    obtain ⟨halpha, hmem⟩ := hsound.2 c hc
    obtain ⟨c0, -, he⟩ := List.mem_map.mp hmem
    obtain ⟨h1, h2⟩ := toLower_alpha_bounds c0 he halpha
    exact isFilenameChar_of_lower h1 h2
  obtain ⟨t, hjoin⟩ := joinUnderscore_cons w ws
  rw [hcw, hjoin, List.filter_append, hfw]
  obtain ⟨c, w', rfl⟩ := List.exists_cons_of_ne_nil hsound.1
  intro habs
  rw [List.take_eq_nil_iff] at habs
  rcases habs with h | h
  · exact absurd h (by decide)
  · simp at h

/-- Claim C8: for every transcript and `max_words`, the generated filename
is non-empty, uses only characters in `[a-z0-9_]` and is at most 50
characters long (given that the timestamp parameter is the 15-character
digits-and-underscore string produced by `strftime("%Y%m%d_%H%M%S")`); an
empty or below-threshold transcript yields the timestamp-based fallback
name; and the spec's two concrete examples hold. -/
theorem generate_smart_filename_spec (now transcript : String) (max_words : Nat)
    (hlen : now.length = 15)
    (hchars : ∀ c ∈ now.data, c.isDigit = true ∨ c = '_') :
    (generate_smart_filename now transcript max_words ≠ "" ∧
     (∀ c ∈ (generate_smart_filename now transcript max_words).data,
        ('a' ≤ c ∧ c ≤ 'z') ∨ ('0' ≤ c ∧ c ≤ '9') ∨ c = '_') ∧
     (generate_smart_filename now transcript max_words).length ≤ 50) ∧
    ((transcript = "" ∨ (stripChars transcript.data).length < 10) →
      generate_smart_filename now transcript max_words = "edited_video_" ++ now) ∧
    generate_smart_filename now "" 6 = "edited_video_" ++ now ∧
    generate_smart_filename now "The quick brown fox jumps." 3 = "quick_brown_fox" := by
  have hfb := fallback_name_props now hlen hchars
  refine ⟨?_, ?_, ?_, ?_⟩
  · by_cases h0 : transcript = "" ∨ (stripChars transcript.data).length < 10
    · rw [generate_smart_filename, if_pos h0]
      exact hfb
    · rw [generate_smart_filename, if_neg h0]
      by_cases h1 : chooseWords (loweredSentence transcript) max_words = []
      · rw [if_pos h1]
        exact hfb
      · rw [if_neg h1]
        refine ⟨mk_ne_empty (smart_main_ne_empty transcript max_words h1),
          fun c hc => filter_take_charset _ c hc, List.length_take_le _ _⟩
  · intro h
    rw [generate_smart_filename, if_pos h]
  · rw [generate_smart_filename, if_pos (Or.inl rfl)]
  · rw [generate_smart_filename, if_neg (by decide), if_neg (by decide)]
    decide

/-- Witness for C8: the theorem applied at a concrete timestamp and the
spec's concrete transcript. -/
theorem generate_smart_filename_spec_witness :
    ("20260101_120000" : String).length = 15 ∧
    (∀ c ∈ ("20260101_120000" : String).data, c.isDigit = true ∨ c = '_') ∧
    generate_smart_filename "20260101_120000" "The quick brown fox jumps." 3 =
      "quick_brown_fox" :=
  ⟨by decide, by decide,
    (generate_smart_filename_spec "20260101_120000" "The quick brown fox jumps." 3
      (by decide) (by decide)).2.2.2⟩

/-! ## The orchestrator tail (main, lines 485-531) -/

/-- The observable outcome of the tail of `main`: the exit code, whether
the encode collaborator (`process_video`) was invoked, whether the
distinct no-speech warning of line 486 was printed, and the filter graph
handed to the collaborator, when one was built. -/
structure RunResult where
  exitCode : Nat
  encodeInvoked : Bool
  noSpeechReported : Bool
  filterGraph : Option (List FilterPart)
  deriving DecidableEq

/-- Embedding of `main` from the VAD result onward (lines 485-531): an
empty interval sequence is reported (line 486) and aborts with exit code 1
(line 487) before any timeline operation runs, any filter graph is built,
or the encode collaborator is invoked; otherwise the segments are merged
(line 501), padded (line 506, with the millisecond padding converted to
seconds), optionally forced to start at zero (lines 510-513),
`process_video` is invoked on the resulting graph, and a failed encode
yields exit code 1 (lines 529-531) while success runs to the final
`return 0`. -/
def mainAfterVAD (speech_segments : List Seg) (merge_gap padding_ms duration : ℚ)
    (keep_start enhance_audio add_transitions encode_success : Bool) : RunResult :=
  if speech_segments = [] then
    { exitCode := 1, encodeInvoked := false, noSpeechReported := true,
      filterGraph := none }
  else
    let s1 := merge_close_segments speech_segments merge_gap
    let s2 := add_padding s1 (padding_ms / 1000) duration
    let s3 := if keep_start then force_start_at_zero s2 else s2
    let graph := process_video_filter s3 enhance_audio add_transitions
    if encode_success then
      { exitCode := 0, encodeInvoked := true, noSpeechReported := false,
        filterGraph := some graph }
    else
      { exitCode := 1, encodeInvoked := true, noSpeechReported := false,
        filterGraph := some graph }

/-- Claim C9: whenever the VAD collaborator returns an empty interval
sequence, the orchestrator reports the no-speech condition and exits with
a non-zero status without ever invoking the encode collaborator and
without building any filter graph, for every combination of the remaining
parameters. -/
theorem no_speech_aborts_before_encode (merge_gap padding_ms duration : ℚ)
    (keep_start enhance_audio add_transitions encode_success : Bool) :
    (mainAfterVAD [] merge_gap padding_ms duration keep_start enhance_audio
        add_transitions encode_success).exitCode ≠ 0 ∧
    (mainAfterVAD [] merge_gap padding_ms duration keep_start enhance_audio
        add_transitions encode_success).encodeInvoked = false ∧
    (mainAfterVAD [] merge_gap padding_ms duration keep_start enhance_audio
        add_transitions encode_success).noSpeechReported = true ∧
    (mainAfterVAD [] merge_gap padding_ms duration keep_start enhance_audio
        add_transitions encode_success).filterGraph = none := by
  simp [mainAfterVAD]

end VEP
